import Mathlib

/-!
Verification development for the activation-propagation process library
(`src/pyClarion/components/elementary.py`) and the Accumulator pattern
(`src/agent.py`).

The numeric-algebra substrate (`NumDict`, `Key`, `KeyForm`, `Site`) is an
external collaborator of the covered core and its sources are not part of
the repository snapshot; it is modelled here from the specification's
data-model section: a `NumDict` is a sparsely-populated mapping from keys
to rationals with an explicit default for unlisted keys, reductions "by" a
`KeyForm` group keys through the projection the form denotes, and
`affected_by` tests index overlap.  Real-valued activations are modelled
by rational numbers.
-/

/-- Modelled from the spec: a NumDict is an immutable, sparsely-populated
mapping from keys to a real value, with an explicit default `c` for
unlisted keys.  `keys` is the list of explicitly listed keys, `val` gives
the stored value at listed keys. -/
structure NumDict (α : Type) where
  keys : List α
  val : α → ℚ
  c : ℚ

variable {α β γ δ : Type}

/-- Value of a NumDict at a key: the stored value for listed keys, the
default constant otherwise. -/
def NumDict.get [DecidableEq α] (d : NumDict α) (k : α) : ℚ :=
  if k ∈ d.keys then d.val k else d.c

/-- Maximum of a list of rationals; 0 on the empty list (the empty case is
never relied on by reductions, whose result lists only nonempty groups). -/
def listMax : List ℚ → ℚ
  | [] => 0
  | a :: t => t.foldl max a

/-- Minimum of a list of rationals; 0 on the empty list. -/
def listMin : List ℚ → ℚ
  | [] => 0
  | a :: t => t.foldl min a

/-- Modelled from the spec: elementwise multiply against another NumDict
re-shaped by a KeyForm; the form acts as a projection `π` of the operand's
keys onto the other dict's key space (broadcast over the collapsed axes). -/
def NumDict.mulBy [DecidableEq α] [DecidableEq β] (w : NumDict α) (x : NumDict β)
    (π : α → β) : NumDict α :=
  ⟨w.keys, fun k => w.val k * x.get (π k), w.c * x.c⟩

/-- Group keys of a reduction: the projections of the listed keys, deduplicated. -/
def NumDict.groupKeys [DecidableEq β] (d : NumDict α) (π : α → β) : List β :=
  (d.keys.map π).dedup

/-- Values of a reduction group: stored values of the listed keys projecting to `g`. -/
def NumDict.groupVals [DecidableEq β] (d : NumDict α) (π : α → β) (g : β) : List ℚ :=
  (d.keys.filter (fun k => π k = g)).map d.val

/-- Modelled from the spec: max-reduction by a KeyForm, collapsing the axes
the form aggregates; each result key is a group of listed keys. -/
def NumDict.maxBy [DecidableEq β] (d : NumDict α) (π : α → β) : NumDict β :=
  ⟨d.groupKeys π, fun g => listMax (d.groupVals π g), d.c⟩

/-- Modelled from the spec: min-reduction by a KeyForm. -/
def NumDict.minBy [DecidableEq β] (d : NumDict α) (π : α → β) : NumDict β :=
  ⟨d.groupKeys π, fun g => listMin (d.groupVals π g), d.c⟩

/-- Modelled from the spec: sum-reduction by a KeyForm. -/
def NumDict.sumBy [DecidableEq β] (d : NumDict α) (π : α → β) : NumDict β :=
  ⟨d.groupKeys π, fun g => (d.groupVals π g).sum, d.c⟩

/-- Replace the default constant (`with_default(c=...)`). -/
def NumDict.withDefault (d : NumDict α) (c : ℚ) : NumDict α :=
  ⟨d.keys, d.val, c⟩

/-- Scalar scale (`scale(x=...)`). -/
def NumDict.scale (d : NumDict α) (x : ℚ) : NumDict α :=
  ⟨d.keys, fun k => d.val k * x, d.c * x⟩

/-- Clamp below (`bound_min(x=...)`): every value is floored at `x`. -/
def NumDict.boundMin (d : NumDict α) (x : ℚ) : NumDict α :=
  ⟨d.keys, fun k => max (d.val k) x, max d.c x⟩

/-- Clamp above (`bound_max(x=...)`): every value is ceiled at `x`. -/
def NumDict.boundMax (d : NumDict α) (x : ℚ) : NumDict α :=
  ⟨d.keys, fun k => min (d.val k) x, min d.c x⟩

/-- Modelled from the spec: elementwise sum of two NumDicts (the positional
`sum` of the algebra), defined on the union of the listed keys with the
defaults summing. -/
def NumDict.add [DecidableEq α] (a b : NumDict α) : NumDict α :=
  ⟨a.keys ∪ b.keys, fun k => a.get k + b.get k, a.c + b.c⟩

/-- Modelled from the spec: elementwise max of two NumDicts. -/
def NumDict.max2 [DecidableEq α] (a b : NumDict α) : NumDict α :=
  ⟨a.keys ∪ b.keys, fun k => max (a.get k) (b.get k), max a.c b.c⟩

/-- Modelled from the spec: elementwise min of two NumDicts. -/
def NumDict.min2 [DecidableEq α] (a b : NumDict α) : NumDict α :=
  ⟨a.keys ∪ b.keys, fun k => min (a.get k) (b.get k), min a.c b.c⟩

/-- Variadic elementwise max `main.max(*numdicts)` as a left fold. -/
def NumDict.maxMany [DecidableEq α] (a : NumDict α) (ds : List (NumDict α)) : NumDict α :=
  ds.foldl NumDict.max2 a

/-- Variadic elementwise min `main.min(*numdicts)` as a left fold. -/
def NumDict.minMany [DecidableEq α] (a : NumDict α) (ds : List (NumDict α)) : NumDict α :=
  ds.foldl NumDict.min2 a

/-- Modelled from the spec: full max-reduction `d.max().c`, collapsing all
axes: the maximum of the listed values, or the default when nothing is
listed. -/
def NumDict.maxAll (d : NumDict α) : ℚ :=
  match d.keys with
  | [] => d.c
  | _ :: _ => listMax (d.keys.map d.val)

/-- Apply an optional pre/post transform (`pipe`). -/
def applyOpt (f : Option (NumDict α → NumDict α)) (d : NumDict α) : NumDict α :=
  match f with
  | none => d
  | some g => g d

/-- First element of a list attaining the maximal value of `f`; `none` on
the empty list.  Models the representative chosen by `argmax` within one
group (ties go to the earliest key, which after continuous perturbation
models the noise-broken tie of the source). -/
def argmaxList (f : α → ℚ) : List α → Option α
  | [] => none
  | a :: t => some (t.foldl (fun b k => if f b < f k then k else b) a)

/-- Modelled from the spec: `argmax(by=...)` returns one representative key
per non-aggregated group; `winners` is the list of chosen representatives
(the `values()` of the returned mapping). -/
def NumDict.winners [DecidableEq α] [DecidableEq β] (d : NumDict α) (π : α → β) : List α :=
  (d.groupKeys π).filterMap
    (fun g => argmaxList d.val (d.keys.filter (fun k => π k = g)))

/-!
Component embeddings.  Each `update`/`select`/`send` below returns the
value the source method computes and schedules for the corresponding site;
the scheduler itself is out of scope, so scheduling is modelled by
returning the scheduled value (on success nothing else is mutated by these
methods, matching the source, where all mutation happens when the
scheduled `Site.Update` is later applied).
-/

/-- A dyad component of an input chunk: a concrete term or a variable
(`Var`, which `Input._parse_input` rejects). -/
inductive CTerm (κ : Type) where
  | term : κ → CTerm κ
  | var : CTerm κ

/-- Payload accepted by `Input.send`: a raw key-to-weight mapping or a
symbolic chunk of dyads with weights. -/
inductive InPayload (κ : Type) where
  | dict : List (κ × ℚ) → InPayload κ
  | chunk : List ((CTerm κ × CTerm κ) × ℚ) → InPayload κ

/-- Errors `Input._parse_input` raises: `unknownKey` models the ValueError
for a key or dimension-value pair absent from the site's index,
`varInChunk` the TypeError for a Var inside an input chunk. -/
inductive InputErr (κ : Type) where
  | unknownKey : κ → InputErr κ
  | varInChunk : InputErr κ
deriving DecidableEq

/-- The single state update `Input.send` schedules on success: the parsed
data together with the replace policy (`reset` selects `Site.push`,
otherwise `Site.write_inplace`). -/
structure InputSched (κ : Type) where
  data : List (κ × ℚ)
  reset : Bool

/-- Embedding of the `dict` branch of `Input._parse_input`: each key is
validated against the site's index, failing at the first unknown key. -/
def Input.parseDict [DecidableEq κ] (idx : List κ) :
    List (κ × ℚ) → Except (InputErr κ) (List (κ × ℚ))
  | [] => .ok []
  | (k, v) :: t =>
    if k ∈ idx then (Input.parseDict idx t).map (fun r => (k, v) :: r)
    else .error (.unknownKey k)

/-- Embedding of the `Chunk` branch of `Input._parse_input`: a Var in a
dyad raises, otherwise the dyad resolves to the product key `comb t1 t2`
(modelling the external Key product of the resolved terms), which is
validated against the index. -/
def Input.parseChunk [DecidableEq κ] (comb : κ → κ → κ) (idx : List κ) :
    List ((CTerm κ × CTerm κ) × ℚ) → Except (InputErr κ) (List (κ × ℚ))
  | [] => .ok []
  | ((CTerm.term a, CTerm.term b), wt) :: r =>
    if comb a b ∈ idx then
      (Input.parseChunk comb idx r).map (fun l => (comb a b, wt) :: l)
    else .error (.unknownKey (comb a b))
  | ((CTerm.var, _), _) :: _ => .error .varInChunk
  | ((CTerm.term _, CTerm.var), _) :: _ => .error .varInChunk

/-- Embedding of `Input._parse_input`. -/
def Input.parseInput [DecidableEq κ] (comb : κ → κ → κ) (idx : List κ) :
    InPayload κ → Except (InputErr κ) (List (κ × ℚ))
  | .dict l => Input.parseDict idx l
  | .chunk l => Input.parseChunk comb idx l

/-- Embedding of `Input.send`: parse the payload (raising to the caller on
failure) and only then schedule exactly one site update.  An error
therefore leaves nothing enqueued and no site changed. -/
def Input.send [DecidableEq κ] (comb : κ → κ → κ) (idx : List κ) (reset : Bool)
    (d : InPayload κ) : Except (InputErr κ) (InputSched κ) :=
  (Input.parseInput comb idx d).map (fun data => ⟨data, reset⟩)

/-- All keys a payload resolves to: the mapping's raw keys, or the product
keys of the Var-free dyads of a chunk. -/
def InPayload.resolvedKeys (comb : κ → κ → κ) : InPayload κ → List κ
  | .dict l => l.map (fun e => e.1)
  | .chunk l => l.filterMap (fun e =>
      match e.1 with
      | (CTerm.term a, CTerm.term b) => some (comb a b)
      | _ => none)

/-- Whether a payload contains a Var inside a chunk dyad. -/
def InPayload.hasVar : InPayload κ → Bool
  | .dict _ => false
  | .chunk l => l.any (fun e =>
      match e.1 with
      | (CTerm.var, _) => true
      | (_, CTerm.var) => true
      | _ => false)

/-- Decision groups of `Choice`: the grouping KeyForm `by` collapses the
value axis, modelled by the projection `π`; the groups are the projections
of the site index. -/
def Choice.groups [DecidableEq β] (index : List α) (π : α → β) : List β :=
  (index.map π).dedup

/-- Embedding of `Choice.select`: combine bias and input, perturb every
entry of the index with independent noise (`normalvariate`, modelled from
the spec by an arbitrary per-key noise term scaled by the standard
deviation parameter), take `argmax` grouped by the decision KeyForm, and
schedule a one-hot `main` over the winners together with the full noisy
sample for the `sample` site.  Returns the scheduled values
`(main, sample)`. -/
def Choice.select [DecidableEq α] [DecidableEq β] (index : List α)
    (bias input : NumDict α) (sd : ℚ) (noise : α → ℚ) (π : α → β) :
    NumDict α × NumDict α :=
  let inp := bias.add input
  let sample : NumDict α := ⟨index, fun k => inp.get k + sd * noise k, 0⟩
  (⟨sample.winners π, fun _ => 1, 0⟩, sample)

/-- One registered Pool input: the contributing site's current value, its
scalar gain and its optional pre-transform. -/
structure PoolInput (α : Type) where
  site : NumDict α
  gain : ℚ
  pre : Option (NumDict α → NumDict α)

/-- A Pool input as it enters the combination function: optionally
pre-transformed, then scaled by its gain
(`s[0].pipe(pre).scale(x=self.params[0][k])`). -/
def Pool.scaledInput [DecidableEq α] (i : PoolInput α) : NumDict α :=
  (applyOpt i.pre i.site).scale i.gain

/-- The pool's own identity value `self.main.new({})`: nothing listed,
default 0. -/
def Pool.mainNew : NumDict α :=
  ⟨[], fun _ => 0, 0⟩

/-- Embedding of `Pool.CAM`: elementwise max of the identity value and all
inputs, plus their elementwise min. -/
def Pool.CAM [DecidableEq α] (main : NumDict α) (ds : List (NumDict α)) : NumDict α :=
  (main.maxMany ds).add (main.minMany ds)

/-- Embedding of `Pool.update`: scale each (optionally pre-transformed)
input by its gain, fold them with the identity value through the
combination function (here `Pool.CAM`), apply the optional post-transform,
and schedule the result for `main`. -/
def Pool.update [DecidableEq α] (ins : List (PoolInput α))
    (post : Option (NumDict α → NumDict α)) : NumDict α :=
  applyOpt post (Pool.CAM Pool.mainNew (ins.map Pool.scaledInput))

/-- Modelled from the spec: a Site as far as Pool wiring needs it, carrying
the KeyForm of its index. -/
structure SiteM (KF : Type) where
  kf : KF

/-- Pool wiring/registry state touched by `Pool.__setitem__`: the KeyForm of
the pool's `main` index, the parameter sort (`self.p`), the input registry,
the recorded pre-transforms and the gain-parameter site.  Registry keys are
the atom keys minted for the given names, modelled by the names
themselves. -/
structure PoolState (α KF : Type) where
  mainKF : KF
  psort : List ℕ
  inputs : List (ℕ × SiteM KF)
  pre : List (ℕ × (NumDict α → NumDict α))
  params : List (ℕ × ℚ)

/-- Argument of `Pool.__setitem__`: a Site, a `(Site, pre)` tuple, or any
other value (which fails the `isinstance` check). -/
inductive PoolArg (α KF : Type) where
  | site : SiteM KF → PoolArg α KF
  | sitePre : SiteM KF → (NumDict α → NumDict α) → PoolArg α KF
  | other : PoolArg α KF

/-- Errors of `Pool.__setitem__`: the TypeError for a non-Site value and the
ValueError for a failed KeyForm-subsumption check. -/
inductive PoolErr where
  | typeErr : PoolErr
  | wiringErr : PoolErr
deriving DecidableEq

/-- The Site a `Pool.__setitem__` argument carries, if any. -/
def PoolArg.siteOf : PoolArg α KF → Option (SiteM KF)
  | .site s => some s
  | .sitePre s _ => some s
  | .other => none

/-- Embedding of `Pool.__setitem__` over an abstract KeyForm-subsumption
test `le` (modelled from the spec: `A <= B` iff every key matching A also
matches B).  The type check and the subsumption check
`self.main.index.kf <= site.index.kf` run first; only on success are the
parameter sort, the registry, the pre-transform table and the gain
parameters extended, the new gain being set to 1.0. -/
def Pool.setItem (le : KF → KF → Bool) (st : PoolState α KF) (name : ℕ)
    (v : PoolArg α KF) : Except PoolErr (PoolState α KF) :=
  match v with
  | .other => .error .typeErr
  | .site s =>
    if le st.mainKF s.kf then
      .ok ⟨st.mainKF, name :: st.psort, (name, s) :: st.inputs, st.pre,
        (name, 1) :: st.params⟩
    else .error .wiringErr
  | .sitePre s f =>
    if le st.mainKF s.kf then
      .ok ⟨st.mainKF, name :: st.psort, (name, s) :: st.inputs,
        (name, f) :: st.pre, (name, 1) :: st.params⟩
    else .error .wiringErr

/-- Embedding of `BottomUp.update`: multiply the weights by the (optionally
pre-transformed) input broadcast over the chunk axis
(`mul_by = keyform(c).agg * keyform(d) * keyform(v)`), max-reduce over the
value axis per chunk-dimension pair
(`max_by = keyform(c) * keyform(d) * keyform(v, -1)`, which keeps the chunk
and dimension levels and collapses the value level), sum-reduce over the
aggregated dimension axis
(`sum_by = keyform(c) * keyform(d).agg * keyform(v, -1).agg`), reset the
default to 0, and apply the optional post-transform.  Keys of the weight
site are chunk-dimension-value triples. -/
def BottomUp.update [DecidableEq α] [DecidableEq β] [DecidableEq γ]
    (w : NumDict (γ × α × β)) (x : NumDict (α × β))
    (pre : Option (NumDict (α × β) → NumDict (α × β)))
    (post : Option (NumDict γ → NumDict γ)) : NumDict γ :=
  let x1 := match pre with | none => x | some f => f x
  let m := (((w.mulBy x1 (fun t => t.2)).maxBy (fun t => (t.1, t.2.1))).sumBy
    (fun p => p.1)).withDefault 0
  match post with
  | none => m
  | some g => g m

/-- The dimensions for which a chunk `k` has at least one listed weight. -/
def BottomUp.dimsOf [DecidableEq α] [DecidableEq γ] (w : NumDict (γ × α × β))
    (k : γ) : List α :=
  ((w.keys.filter (fun t => t.1 = k)).map (fun t => t.2.1)).dedup

/-- The per-dimension maximum of weighted input over the values of a
dimension `d` matched by chunk `k`. -/
def BottomUp.dimMax [DecidableEq α] [DecidableEq β] [DecidableEq γ]
    (w : NumDict (γ × α × β)) (x : NumDict (α × β)) (k : γ) (d : α) : ℚ :=
  listMax ((w.keys.filter (fun t => t.1 = k ∧ t.2.1 = d)).map
    (fun t => w.val t * x.get t.2))

/-- The value the claim attributes to a matched chunk `k`: the maximum of
`weights(k, d, v) * input(d, v)` over all listed (dimension, value) pairs
of `k`. -/
def BottomUp.pairMax [DecidableEq α] [DecidableEq β] [DecidableEq γ]
    (w : NumDict (γ × α × β)) (x : NumDict (α × β)) (k : γ) : ℚ :=
  listMax ((w.keys.filter (fun t => t.1 = k)).map
    (fun t => w.val t * x.get t.2))

/-- Embedding of `TopDown.CAM`: max-reduce floored at 0 with default 0,
plus min-reduce ceiled at 0 with default 0. -/
def TopDown.CAM [DecidableEq α] [DecidableEq β] (d : NumDict α) (π : α → β) :
    NumDict β :=
  (((d.maxBy π).boundMin 0).withDefault 0).add
    (((d.minBy π).boundMax 0).withDefault 0)

/-- Embedding of `TopDown.update`: multiply the weights by the (optionally
pre-transformed) chunk input broadcast over the feature axes
(`mul_by = keyform(c) * keyform(d).agg * keyform(v).agg`), apply the
optional post-transform to the contributions, aggregate per
dimension-value cell with the CAM rule
(`maxmin_by = keyform(c).agg * keyform(d) * keyform(v)`), and reset the
default to 0. -/
def TopDown.update [DecidableEq α] [DecidableEq β] [DecidableEq γ]
    (w : NumDict (γ × α × β)) (x : NumDict γ)
    (pre : Option (NumDict γ → NumDict γ))
    (post : Option (NumDict (γ × α × β) → NumDict (γ × α × β))) :
    NumDict (α × β) :=
  let x1 := match pre with | none => x | some f => f x
  let cf := w.mulBy x1 (fun t => t.1)
  let cf1 := match post with | none => cf | some g => g cf
  (TopDown.CAM cf1 (fun t => t.2)).withDefault 0

/-- The weighted chunk contributions a dimension-value cell receives under
`TopDown.update`: one per listed weight key of that cell. -/
def TopDown.contribs [DecidableEq γ] (w : NumDict (γ × α × β)) (x : NumDict γ)
    (cell : α × β) [DecidableEq (α × β)] : List ℚ :=
  (w.keys.filter (fun t => t.2 = cell)).map (fun t => w.val t * x.get t.1)

/-- An update record of an event: a `Site.Update` carrying the keys it
writes (modelled from the spec: `affected_by` tests index overlap of the
update set), or some other update kind, which `resolve` filters out. -/
inductive Upd (κ : Type) where
  | siteUpd : List κ → Upd κ
  | other : Upd κ
deriving DecidableEq

/-- An event as delivered to `resolve`: the set of updates applied. -/
structure EventM (κ : Type) where
  updates : List (Upd κ)

/-- The `Site.Update` records of an event
(`[ud for ud in event.updates if isinstance(ud, Site.Update)]`). -/
def siteUpdates : List (Upd κ) → List (List κ)
  | [] => []
  | .siteUpd t :: r => t :: siteUpdates r
  | .other :: r => siteUpdates r

/-- Modelled from the spec: `Site.affected_by` reports whether a given
update set intersects the site's own index. -/
def affectedBy [DecidableEq κ] (idx : List κ) (us : List (List κ)) : Bool :=
  us.any (fun t => t.any (fun k => k ∈ idx))

/-- Embedding of `BottomUp.resolve`: returns whether `update()` is called
for the event, namely when the declared input site is affected. -/
def BottomUp.resolve [DecidableEq κ] (inputIdx : List κ) (e : EventM κ) : Bool :=
  affectedBy inputIdx (siteUpdates e.updates)

/-- Embedding of `TopDown.resolve`: same input-gated contract. -/
def TopDown.resolve [DecidableEq κ] (inputIdx : List κ) (e : EventM κ) : Bool :=
  affectedBy inputIdx (siteUpdates e.updates)

/-- Embedding of `Accumulator.update`: the value scheduled for `main` is the
current `main` plus the current `input`. -/
def Accumulator.update [DecidableEq α] (main input : NumDict α) : NumDict α :=
  main.add input

/-- Embedding of `Accumulator.clear`: `main` is overwritten with the empty
mapping over its index, whose default constant is the site's 0. -/
def Accumulator.clearMain : NumDict α :=
  ⟨[], fun _ => 0, 0⟩

/-- One processed accumulator transition: an applied `update` reading the
given input value, or an applied `clear`. -/
inductive AccOp (α : Type) where
  | step : NumDict α → AccOp α
  | clear : AccOp α

/-- The `main` value after a sequence of applied accumulator transitions. -/
def Accumulator.run [DecidableEq α] (m : NumDict α) : List (AccOp α) → NumDict α
  | [] => m
  | .step x :: r => Accumulator.run (Accumulator.update m x) r
  | .clear :: r => Accumulator.run Accumulator.clearMain r

/-!
Concrete instances used by counterexamples and witnesses.
-/

/-- A weight tensor giving chunk 0 one unit weight on each of the two
dimension-value pairs (0, 0) and (1, 0). -/
def wC1 : NumDict (ℕ × ℕ × ℕ) :=
  ⟨[(0, 0, 0), (0, 1, 0)], fun _ => 1, 0⟩

/-- A feature input of one unit activation on each of the pairs (0, 0) and
(1, 0). -/
def xC1 : NumDict (ℕ × ℕ) :=
  ⟨[(0, 0), (1, 0)], fun _ => 1, 0⟩

/-- An accumulator input worth 5 at key 0. -/
def accInc5 : NumDict ℕ :=
  ⟨[0], fun _ => 5, 0⟩

/-- An accumulator input worth -3 at key 0. -/
def accDec3 : NumDict ℕ :=
  ⟨[0], fun _ => -3, 0⟩

/-- An accumulator input worth 1 at key 0. -/
def accInc1 : NumDict ℕ :=
  ⟨[0], fun _ => 1, 0⟩

/-- An empty pool wiring state whose main KeyForm is 0. -/
def poolStEx : PoolState ℕ ℕ :=
  ⟨0, [], [], [], []⟩

/-- The pool wiring state `Pool.setItem` produces when registering site
`⟨0⟩` under name 7 in `poolStEx` with the always-true subsumption test. -/
def poolStEx' : PoolState ℕ ℕ :=
  ⟨0, [7], [(7, ⟨0⟩)], [], [(7, 1)]⟩

/-! Helper lemmas about list folds and NumDict accessors. -/

theorem le_foldl_max (t : List ℚ) (a : ℚ) : a ≤ t.foldl max a := by
  induction t generalizing a with
  | nil => exact le_refl a
  | cons b t ih => exact le_trans (le_max_left a b) (ih (max a b))

theorem mem_le_foldl_max (t : List ℚ) (a x : ℚ) (hx : x ∈ t) :
    x ≤ t.foldl max a := by
  induction t generalizing a with
  | nil => cases hx
  | cons b t ih =>
    rcases List.mem_cons.mp hx with h | h
    · subst h
      exact le_trans (le_max_right a x) (le_foldl_max t (max a x))
    · exact ih (max a b) h

theorem foldl_max_mem (t : List ℚ) (a : ℚ) :
    t.foldl max a = a ∨ t.foldl max a ∈ t := by
  induction t generalizing a with
  | nil => exact Or.inl rfl
  | cons b t ih =>
    rcases ih (max a b) with h | h
    · rcases max_choice a b with hm | hm
      · exact Or.inl (by rw [List.foldl_cons, h, hm])
      · exact Or.inr (by rw [List.foldl_cons, h, hm]; exact List.mem_cons_self b t)
    · exact Or.inr (List.mem_cons_of_mem b h)

theorem le_listMax {l : List ℚ} {x : ℚ} (hx : x ∈ l) : x ≤ listMax l := by
  cases l with
  | nil => cases hx
  | cons a t =>
    rcases List.mem_cons.mp hx with h | h
    · subst h; exact le_foldl_max t x
    · exact mem_le_foldl_max t a x h

theorem listMax_mem {l : List ℚ} (h : l ≠ []) : listMax l ∈ l := by
  cases l with
  | nil => exact absurd rfl h
  | cons a t =>
    rcases foldl_max_mem t a with hm | hm
    · show t.foldl max a ∈ a :: t
      rw [hm]
      exact List.mem_cons_self a t
    · exact List.mem_cons_of_mem a hm

theorem foldl_max_mul (c : ℚ) (hc : 0 ≤ c) (t : List ℚ) :
    ∀ a : ℚ, (t.map (fun q => c * q)).foldl max (c * a) = c * t.foldl max a := by
  induction t with
  | nil => intro a; rfl
  | cons b t ih =>
    intro a
    simp only [List.map_cons, List.foldl_cons]
    rw [← mul_max_of_nonneg a b hc]
    exact ih (max a b)

theorem listMax_mul (c : ℚ) (hc : 0 ≤ c) (l : List ℚ) :
    listMax (l.map (fun q => c * q)) = c * listMax l := by
  cases l with
  | nil => simp [listMax]
  | cons a t => exact foldl_max_mul c hc t a

theorem NumDict.get_add [DecidableEq α] (a b : NumDict α) (k : α) :
    (a.add b).get k = a.get k + b.get k := by
  by_cases h : k ∈ a.keys ∪ b.keys
  · simp [NumDict.add, NumDict.get, h]
  · have ha : k ∉ a.keys := fun hm => h (List.mem_union_left hm _)
    have hb : k ∉ b.keys := fun hm => h (List.mem_union_right _ hm)
    simp [NumDict.add, NumDict.get, h, ha, hb]

theorem NumDict.get_max2 [DecidableEq α] (a b : NumDict α) (k : α) :
    (a.max2 b).get k = max (a.get k) (b.get k) := by
  by_cases h : k ∈ a.keys ∪ b.keys
  · simp [NumDict.max2, NumDict.get, h]
  · have ha : k ∉ a.keys := fun hm => h (List.mem_union_left hm _)
    have hb : k ∉ b.keys := fun hm => h (List.mem_union_right _ hm)
    simp [NumDict.max2, NumDict.get, h, ha, hb]

theorem NumDict.get_min2 [DecidableEq α] (a b : NumDict α) (k : α) :
    (a.min2 b).get k = min (a.get k) (b.get k) := by
  by_cases h : k ∈ a.keys ∪ b.keys
  · simp [NumDict.min2, NumDict.get, h]
  · have ha : k ∉ a.keys := fun hm => h (List.mem_union_left hm _)
    have hb : k ∉ b.keys := fun hm => h (List.mem_union_right _ hm)
    simp [NumDict.min2, NumDict.get, h, ha, hb]

theorem NumDict.get_maxMany [DecidableEq α] (ds : List (NumDict α))
    (a : NumDict α) (k : α) :
    (a.maxMany ds).get k = (ds.map (fun d => d.get k)).foldl max (a.get k) := by
  induction ds generalizing a with
  | nil => rfl
  | cons d ds ih =>
    simp only [NumDict.maxMany, List.foldl_cons, List.map_cons]
    rw [← NumDict.get_max2 a d k]
    exact ih (a.max2 d)

theorem NumDict.get_minMany [DecidableEq α] (ds : List (NumDict α))
    (a : NumDict α) (k : α) :
    (a.minMany ds).get k = (ds.map (fun d => d.get k)).foldl min (a.get k) := by
  induction ds generalizing a with
  | nil => rfl
  | cons d ds ih =>
    simp only [NumDict.minMany, List.foldl_cons, List.map_cons]
    rw [← NumDict.get_min2 a d k]
    exact ih (a.min2 d)

theorem list_sum_zero (f : α → ℚ) (l : List α) (h : ∀ k ∈ l, f k = 0) :
    (l.map f).sum = 0 := by
  induction l with
  | nil => rfl
  | cons a t ih =>
    simp only [List.map_cons, List.sum_cons]
    rw [h a (List.mem_cons_self a t), ih (fun k hk => h k (List.mem_cons_of_mem a hk))]
    ring

theorem sum_indicator_one [DecidableEq α] (f : α → ℚ) (w : α) (l : List α)
    (h : ∀ k ∈ l, f k = if k = w then 1 else 0) (hnd : l.Nodup) (hw : w ∈ l) :
    (l.map f).sum = 1 := by
  induction l with
  | nil => cases hw
  | cons a t ih =>
    have hna : a ∉ t := (List.nodup_cons.mp hnd).1
    have hnt : t.Nodup := (List.nodup_cons.mp hnd).2
    simp only [List.map_cons, List.sum_cons]
    rcases List.mem_cons.mp hw with hww | hww
    · subst hww
      rw [h w (List.mem_cons_self w t), if_pos rfl]
      rw [list_sum_zero f t (fun k hk => by
        rw [h k (List.mem_cons_of_mem w hk), if_neg (fun he : k = w => hna (he ▸ hk))])]
      ring
    · have haw : a ≠ w := fun he => hna (he ▸ hww)
      rw [h a (List.mem_cons_self a t), if_neg haw,
        ih (fun k hk => h k (List.mem_cons_of_mem a hk)) hnt hww]
      ring

theorem filter_length_zero (f : α → ℚ) (l : List α) (h : ∀ k ∈ l, f k ≠ 1) :
    (l.filter (fun k => f k = 1)).length = 0 := by
  induction l with
  | nil => rfl
  | cons a t ih =>
    rw [List.filter_cons_of_neg (by simp [h a (List.mem_cons_self a t)])]
    exact ih (fun k hk => h k (List.mem_cons_of_mem a hk))

theorem length_filter_indicator_one [DecidableEq α] (f : α → ℚ) (w : α)
    (l : List α) (h : ∀ k ∈ l, f k = if k = w then 1 else 0) (hnd : l.Nodup)
    (hw : w ∈ l) : (l.filter (fun k => f k = 1)).length = 1 := by
  induction l with
  | nil => cases hw
  | cons a t ih =>
    have hna : a ∉ t := (List.nodup_cons.mp hnd).1
    have hnt : t.Nodup := (List.nodup_cons.mp hnd).2
    rcases List.mem_cons.mp hw with hww | hww
    · subst hww
      rw [List.filter_cons_of_pos (by simp [h w (List.mem_cons_self w t)])]
      rw [List.length_cons, filter_length_zero f t (fun k hk => by
        rw [h k (List.mem_cons_of_mem w hk), if_neg (fun he : k = w => hna (he ▸ hk))]
        exact zero_ne_one)]
    · have haw : a ≠ w := fun he => hna (he ▸ hww)
      rw [List.filter_cons_of_neg (by
        rw [h a (List.mem_cons_self a t), if_neg haw]; simp)]
      exact ih (fun k hk => h k (List.mem_cons_of_mem a hk)) hnt hww

theorem foldl_pick_mem (f : α → ℚ) (t : List α) :
    ∀ a : α, t.foldl (fun b k => if f b < f k then k else b) a ∈ a :: t := by
  induction t with
  | nil => intro a; exact List.mem_cons_self a []
  | cons b t ih =>
    intro a
    simp only [List.foldl_cons]
    rcases List.mem_cons.mp (ih (if f a < f b then b else a)) with h | h
    · rw [h]
      by_cases hc : f a < f b
      · simp only [if_pos hc]
        exact List.mem_cons_of_mem a (List.mem_cons_self b t)
      · simp only [if_neg hc]
        exact List.mem_cons_self a (b :: t)
    · exact List.mem_cons_of_mem a (List.mem_cons_of_mem b h)

theorem argmaxList_mem {f : α → ℚ} {l : List α} {w : α}
    (h : argmaxList f l = some w) : w ∈ l := by
  cases l with
  | nil => cases h
  | cons a t =>
    have hw : t.foldl (fun b k => if f b < f k then k else b) a = w :=
      Option.some.inj h
    rw [← hw]
    exact foldl_pick_mem f t a

theorem argmaxList_eq_some (f : α → ℚ) {l : List α} (h : l ≠ []) :
    ∃ w, argmaxList f l = some w := by
  cases l with
  | nil => exact absurd rfl h
  | cons a t => exact ⟨_, rfl⟩

theorem winners_mem_iff [DecidableEq α] [DecidableEq β] (d : NumDict α)
    (π : α → β) (k : α) :
    k ∈ d.winners π ↔ ∃ g ∈ d.groupKeys π,
      argmaxList d.val (d.keys.filter (fun j => π j = g)) = some k := by
  simp [NumDict.winners, List.mem_filterMap]

/-!
Claim theorems.
-/

/-- Claim C2: for every finite input and bias activation profile and every
standard deviation sd greater than 0, the `main` value scheduled by
`Choice.select()` is exactly one-hot per decision group: within each group
of the grouping KeyForm exactly one key carries value 1.0 and the values
in the group sum to 1, and the full noisy sample is scheduled for the
`sample` site. -/
theorem choice_select_onehot [DecidableEq α] [DecidableEq β] (index : List α)
    (bias input : NumDict α) (sd : ℚ) (noise : α → ℚ) (π : α → β)
    (hnd : index.Nodup) (hsd : 0 < sd) :
    (∀ g ∈ Choice.groups index π,
      ((index.filter (fun k => π k = g)).map
        (Choice.select index bias input sd noise π).1.get).sum = 1
      ∧ ((index.filter (fun k => π k = g)).filter
          (fun k => (Choice.select index bias input sd noise π).1.get k = 1)).length
          = 1)
    ∧ ∀ k ∈ index, (Choice.select index bias input sd noise π).2.get k
        = bias.get k + input.get k + sd * noise k := by
  have hsel : Choice.select index bias input sd noise π =
      (⟨NumDict.winners ⟨index, fun k => (bias.add input).get k + sd * noise k, 0⟩ π,
        fun _ => 1, 0⟩,
       ⟨index, fun k => (bias.add input).get k + sd * noise k, 0⟩) := rfl
  set S : NumDict α := ⟨index, fun k => (bias.add input).get k + sd * noise k, 0⟩
    with hSdef
  have hMget : ∀ k, (⟨S.winners π, fun _ => (1:ℚ), 0⟩ : NumDict α).get k
      = if k ∈ S.winners π then (1:ℚ) else 0 := by
    intro k
    by_cases h : k ∈ S.winners π <;> simp [NumDict.get, h]
  constructor
  · intro g hg
    have hgex : ∃ a ∈ index, π a = g := by
      simpa [Choice.groups, List.mem_dedup] using hg
    obtain ⟨a, ha, hπa⟩ := hgex
    have haG : a ∈ index.filter (fun k => π k = g) :=
      List.mem_filter.mpr ⟨ha, by simp [hπa]⟩
    have hGne : index.filter (fun k => π k = g) ≠ [] := by
      intro h0
      rw [h0] at haG
      cases haG
    obtain ⟨w, hw⟩ := argmaxList_eq_some S.val hGne
    have hwG : w ∈ index.filter (fun k => π k = g) := argmaxList_mem hw
    have hwIdx : w ∈ index := (List.mem_filter.mp hwG).1
    have hgGK : g ∈ S.groupKeys π := hg
    have hwW : w ∈ S.winners π := by
      refine (winners_mem_iff S π w).mpr ⟨g, hgGK, ?_⟩
      exact hw
    have huniq : ∀ k, k ∈ index.filter (fun j => π j = g) → k ∈ S.winners π
        → k = w := by
      intro k hkG hkW
      obtain ⟨g2, hg2, hk⟩ := (winners_mem_iff S π k).mp hkW
      have hkG2 : k ∈ index.filter (fun j => π j = g2) := argmaxList_mem hk
      have hπk2 : π k = g2 := by
        have := (List.mem_filter.mp hkG2).2
        simpa using this
      have hπk : π k = g := by
        have := (List.mem_filter.mp hkG).2
        simpa using this
      have hgg : g2 = g := by rw [← hπk2, hπk]
      subst hgg
      have := hw.symm.trans hk
      exact (Option.some.inj this).symm
    have hpt : ∀ k ∈ index.filter (fun j => π j = g),
        (⟨S.winners π, fun _ => (1:ℚ), 0⟩ : NumDict α).get k
          = if k = w then (1:ℚ) else 0 := by
      intro k hk
      rw [hMget k]
      by_cases he : k = w
      · subst he
        simp [hwW]
      · have hkn : k ∉ S.winners π := fun hin => he (huniq k hk hin)
        simp [hkn, he]
    constructor
    · rw [hsel]
      exact sum_indicator_one _ w _ hpt (hnd.filter _) hwG
    · rw [hsel]
      exact length_filter_indicator_one _ w _ hpt (hnd.filter _) hwG
  · intro k hk
    rw [hsel]
    show S.get k = bias.get k + input.get k + sd * noise k
    have hS : S.get k = (bias.add input).get k + sd * noise k := by
      show (if k ∈ index then (bias.add input).get k + sd * noise k else (0:ℚ))
          = (bias.add input).get k + sd * noise k
      rw [if_pos hk]
    rw [hS, NumDict.get_add]

/-- Witness for C2: the one-hot sum property evaluated at a concrete
two-key index with a single decision group. -/
theorem choice_select_onehot_witness :
    ([0, 1] : List ℕ).Nodup ∧ (0:ℚ) < 1 ∧
    ((([0, 1] : List ℕ).filter (fun k => (fun _ : ℕ => (0 : ℕ)) k = 0)).map
      (Choice.select ([0, 1] : List ℕ) ⟨[], fun _ => 0, 0⟩ ⟨[0], fun _ => 2, 0⟩ 1
        (fun k : ℕ => (k : ℚ)) (fun _ : ℕ => (0 : ℕ))).1.get).sum = 1 :=
  ⟨by decide, by norm_num,
    ((choice_select_onehot ([0, 1] : List ℕ) ⟨[], fun _ => 0, 0⟩ ⟨[0], fun _ => 2, 0⟩ 1
      (fun k : ℕ => (k : ℚ)) (fun _ : ℕ => (0 : ℕ)) (by decide) (by norm_num)).1
      0 (by decide)).1⟩

/-- Claim C7: with the CAM combination function, `Pool.update` writes a
main in which each key's value equals the elementwise maximum over the
identity value and all gain-scaled (and optionally pre-transformed)
inputs, plus the elementwise minimum over that same collection. -/
theorem pool_update_cam_formula [DecidableEq α] (ins : List (PoolInput α)) (k : α) :
    (Pool.update ins none).get k
      = listMax ((0:ℚ) :: ins.map (fun i => (Pool.scaledInput i).get k))
        + listMin ((0:ℚ) :: ins.map (fun i => (Pool.scaledInput i).get k)) := by
  have hid : (Pool.mainNew : NumDict α).get k = 0 := by
    simp [Pool.mainNew, NumDict.get]
  have hup : Pool.update ins none
      = ((Pool.mainNew.maxMany (ins.map Pool.scaledInput)).add
         (Pool.mainNew.minMany (ins.map Pool.scaledInput))) := rfl
  rw [hup, NumDict.get_add, NumDict.get_maxMany, NumDict.get_minMany, hid]
  simp only [listMax, listMin, List.map_map]
  rfl

theorem groupKeys_mem_iff [DecidableEq β] (d : NumDict α) (π : α → β) (g : β) :
    g ∈ d.groupKeys π ↔ d.groupVals π g ≠ [] := by
  constructor
  · intro h hnil
    have hex : ∃ k ∈ d.keys, π k = g := by
      simpa [NumDict.groupKeys, List.mem_dedup] using h
    obtain ⟨k, hk, hπ⟩ := hex
    have hmemf : k ∈ d.keys.filter (fun j => π j = g) :=
      List.mem_filter.mpr ⟨hk, by simp [hπ]⟩
    have hfil : d.keys.filter (fun j => π j = g) = [] := by
      simpa [NumDict.groupVals] using hnil
    rw [hfil] at hmemf
    cases hmemf
  · intro h
    rcases hne : d.keys.filter (fun j => π j = g) with _ | ⟨k, t⟩
    · exact absurd (by simp [NumDict.groupVals, hne]) h
    · have hk : k ∈ d.keys.filter (fun j => π j = g) := by
        rw [hne]
        exact List.mem_cons_self k t
      have hkk := List.mem_filter.mp hk
      simp only [NumDict.groupKeys, List.mem_dedup, List.mem_map]
      exact ⟨k, hkk.1, by simpa using hkk.2⟩

theorem TopDown.CAM_get [DecidableEq α] [DecidableEq β] (d : NumDict α)
    (π : α → β) (g : β) :
    ((TopDown.CAM d π).withDefault 0).get g
      = if g ∈ d.groupKeys π
        then max (listMax (d.groupVals π g)) 0 + min (listMin (d.groupVals π g)) 0
        else 0 := by
  by_cases h : g ∈ d.groupKeys π
  · simp only [TopDown.CAM, NumDict.withDefault, NumDict.boundMin,
      NumDict.boundMax, NumDict.maxBy, NumDict.minBy, NumDict.add, NumDict.get]
    simp [h]
  · simp only [TopDown.CAM, NumDict.withDefault, NumDict.boundMin,
      NumDict.boundMax, NumDict.maxBy, NumDict.minBy, NumDict.add, NumDict.get]
    simp [h]

/-- Claim C3: `TopDown.update` computes the value of `main` at each
dimension-value cell as the CAM aggregate of the weighted chunk
contributions for that cell: the maximum over all contributions floored at
0 plus the minimum over all contributions ceiled at 0, cells receiving no
contribution defaulting to 0.  In particular, two contributions of equal
magnitude and opposite sign yield `max(a, 0) + min(-a, 0)`, the maximal
positive plus the minimal negative contribution. -/
theorem topDown_update_cam_cells [DecidableEq α] [DecidableEq β] [DecidableEq γ]
    (w : NumDict (γ × α × β)) (x : NumDict γ) (cell : α × β) :
    (TopDown.update w x none none).get cell
      = if TopDown.contribs w x cell = []
        then 0
        else max (listMax (TopDown.contribs w x cell)) 0
          + min (listMin (TopDown.contribs w x cell)) 0 := by
  have hup : TopDown.update w x none none
      = (TopDown.CAM (w.mulBy x (fun t => t.1))
          (fun t : γ × α × β => t.2)).withDefault 0 := rfl
  have hgv : (w.mulBy x (fun t : γ × α × β => t.1)).groupVals
      (fun t : γ × α × β => t.2) cell = TopDown.contribs w x cell := rfl
  rw [hup, TopDown.CAM_get, hgv]
  by_cases hnil : TopDown.contribs w x cell = []
  · rw [if_pos hnil, if_neg]
    intro hmem
    exact (groupKeys_mem_iff _ _ _).mp hmem (hgv.trans hnil)
  · rw [if_neg hnil, if_pos]
    exact (groupKeys_mem_iff _ _ _).mpr (fun h0 => hnil (hgv.symm.trans h0))

/-- Claim C1 (amended): the value `BottomUp.update` schedules for `main`
at a chunk key `k` equals the sum over the dimensions matched by `k`'s
listed weights of the per-dimension maximum over values of
`weights(k, d, v) * input(d, v)`, defaulting to 0 for chunks matched by no
weight (the sum over the empty dimension list); the input here stands for
the optionally pre-transformed input and the optional post-transform
applies to the whole result last. -/
theorem bottomUp_update_dimwise_sum [DecidableEq α] [DecidableEq β] [DecidableEq γ]
    (w : NumDict (γ × α × β)) (x : NumDict (α × β)) (k : γ) :
    ((BottomUp.update w x none none).get k
      = ((BottomUp.dimsOf w k).map (fun d => BottomUp.dimMax w x k d)).sum)
    ∧ (∀ (pre : NumDict (α × β) → NumDict (α × β))
        (post : Option (NumDict γ → NumDict γ)),
        BottomUp.update w x (some pre) post = BottomUp.update w (pre x) none post)
    ∧ (∀ post : NumDict γ → NumDict γ,
        BottomUp.update w x none (some post)
          = post (BottomUp.update w x none none)) := by
  refine ⟨?_, fun pre post => rfl, fun post => rfl⟩
  classical
  set M := w.mulBy x (fun t : γ × α × β => t.2) with hM
  set A := M.maxBy (fun t : γ × α × β => (t.1, t.2.1)) with hA
  set S := A.sumBy (fun p : γ × α => p.1) with hS
  have hupd : BottomUp.update w x none none = S.withDefault 0 := rfl
  have hAkeys : A.keys = (w.keys.map (fun t : γ × α × β => (t.1, t.2.1))).dedup := rfl
  have hSkeys : S.keys = (A.keys.map (fun p : γ × α => p.1)).dedup := rfl
  by_cases hk : k ∈ S.keys
  · have hget : (S.withDefault 0).get k = S.val k := by
      show (if k ∈ S.keys then S.val k else 0) = S.val k
      rw [if_pos hk]
    rw [hupd, hget]
    have hSval : S.val k = ((A.keys.filter (fun p : γ × α => p.1 = k)).map A.val).sum := rfl
    rw [hSval]
    have hBnd : (A.keys.filter (fun p : γ × α => p.1 = k)).Nodup := by
      rw [hAkeys]
      exact (List.nodup_dedup _).filter _
    have hLnd : ((BottomUp.dimsOf w k).map (fun d => (k, d))).Nodup := by
      refine List.Nodup.map ?_ ?_
      · intro a b hab
        exact (Prod.ext_iff.mp hab).2
      · exact List.nodup_dedup _
    have hmemiff : ∀ p : γ × α,
        p ∈ A.keys.filter (fun p : γ × α => p.1 = k)
          ↔ p ∈ (BottomUp.dimsOf w k).map (fun d => (k, d)) := by
      intro p
      constructor
      · intro hp
        have hp1 := List.mem_filter.mp hp
        have hpk : p.1 = k := by simpa using hp1.2
        have hex : ∃ t ∈ w.keys, (t.1, t.2.1) = p := by
          have hpa := hp1.1
          rw [hAkeys] at hpa
          simpa [List.mem_dedup, List.mem_map] using hpa
        obtain ⟨t, ht, hteq⟩ := hex
        have ht1 : t.1 = k := by rw [← hpk, ← hteq]
        have ht2 : t.2.1 = p.2 := by rw [← hteq]
        simp only [List.mem_map]
        refine ⟨p.2, ?_, ?_⟩
        · unfold BottomUp.dimsOf
          simp only [List.mem_dedup, List.mem_map]
          exact ⟨t, List.mem_filter.mpr ⟨ht, by simp [ht1]⟩, ht2⟩
        · exact Prod.ext_iff.mpr ⟨hpk.symm, rfl⟩
      · intro hp
        obtain ⟨d, hd, hdp⟩ := List.mem_map.mp hp
        have hdex : ∃ t ∈ w.keys, t.1 = k ∧ t.2.1 = d := by
          unfold BottomUp.dimsOf at hd
          simp only [List.mem_dedup, List.mem_map] at hd
          obtain ⟨t, htf, ht2⟩ := hd
          have htf2 := List.mem_filter.mp htf
          exact ⟨t, htf2.1, by simpa using htf2.2, ht2⟩
        obtain ⟨t, ht, ht1, ht2⟩ := hdex
        refine List.mem_filter.mpr ⟨?_, ?_⟩
        · rw [hAkeys]
          simp only [List.mem_dedup, List.mem_map]
          refine ⟨t, ht, ?_⟩
          rw [← hdp]
          exact Prod.ext_iff.mpr ⟨ht1, ht2⟩
        · rw [← hdp]
          simp
    have hperm : List.Perm (A.keys.filter (fun p : γ × α => p.1 = k))
        ((BottomUp.dimsOf w k).map (fun d => (k, d))) :=
      (List.perm_ext_iff_of_nodup hBnd hLnd).mpr hmemiff
    rw [(hperm.map A.val).sum_eq, List.map_map]
    apply congrArg List.sum
    apply List.map_congr_left
    intro d hd
    show listMax (M.groupVals (fun t : γ × α × β => (t.1, t.2.1)) (k, d))
        = BottomUp.dimMax w x k d
    have hval : M.groupVals (fun t : γ × α × β => (t.1, t.2.1)) (k, d)
        = (w.keys.filter (fun t => t.1 = k ∧ t.2.1 = d)).map
          (fun t => w.val t * x.get t.2) := by
      unfold NumDict.groupVals
      have hfil : M.keys.filter (fun t : γ × α × β => (t.1, t.2.1) = (k, d))
          = w.keys.filter (fun t => t.1 = k ∧ t.2.1 = d) := by
        have hkeq : M.keys = w.keys := rfl
        rw [hkeq]
        apply List.filter_congr
        intro t ht
        simp [Prod.ext_iff]
      rw [show (fun t : γ × α × β => decide ((fun t : γ × α × β => (t.1, t.2.1)) t = (k, d)))
          = (fun t : γ × α × β => decide ((t.1, t.2.1) = (k, d))) from rfl]
      rw [hfil]
      rfl
    rw [hval]
    rfl
  · have hget : (S.withDefault 0).get k = 0 := by
      show (if k ∈ S.keys then S.val k else 0) = 0
      rw [if_neg hk]
    have hnof : w.keys.filter (fun t : γ × α × β => t.1 = k) = [] := by
      rw [List.filter_eq_nil_iff]
      intro t ht hteq
      apply hk
      have hteq2 : t.1 = k := by simpa using hteq
      have hpA : (t.1, t.2.1) ∈ A.keys := by
        rw [hAkeys]
        simp only [List.mem_dedup, List.mem_map]
        exact ⟨t, ht, rfl⟩
      rw [hSkeys]
      simp only [List.mem_dedup, List.mem_map]
      exact ⟨(t.1, t.2.1), hpA, hteq2⟩
    have hdim : BottomUp.dimsOf w k = [] := by
      unfold BottomUp.dimsOf
      rw [hnof]
      rfl
    rw [hupd, hget, hdim]
    rfl

/-- Counterexample for C1 as stated: with a 2-by-2 weight tensor giving
chunk 0 unit weights on two distinct dimensions and unit input, the value
`BottomUp.update` schedules at chunk 0 is 2 (the sum over the two
dimensions of per-dimension maxima), while the claimed maximum over all
(dimension, value) pairs of `weights * input` is 1. -/
theorem bottomUp_pairmax_counterexample :
    (BottomUp.update wC1 xC1 none none).get 0 = 2
    ∧ BottomUp.pairMax wC1 xC1 0 = 1
    ∧ (BottomUp.update wC1 xC1 none none).get 0 ≠ BottomUp.pairMax wC1 xC1 0 := by
  have h1 : (BottomUp.update wC1 xC1 none none).get 0 = 2 := by
    simp +decide [BottomUp.update, NumDict.mulBy, NumDict.maxBy, NumDict.sumBy,
      NumDict.withDefault, NumDict.get, NumDict.groupKeys, NumDict.groupVals,
      wC1, xC1, listMax]
    norm_num
  have h2 : BottomUp.pairMax wC1 xC1 0 = 1 := by
    simp [BottomUp.pairMax, NumDict.get, wC1, xC1, listMax]
  refine ⟨h1, h2, ?_⟩
  rw [h1, h2]
  norm_num

theorem maxAll_eq_listMax (d : NumDict α) (h : d.keys ≠ []) :
    d.maxAll = listMax (d.keys.map d.val) := by
  unfold NumDict.maxAll
  cases hd : d.keys with
  | nil => exact absurd hd h
  | cons a t => rfl

theorem maxAll_eq_c (d : NumDict α) (h : d.keys = []) : d.maxAll = d.c := by
  unfold NumDict.maxAll
  rw [h]

theorem accumulator_run_append [DecidableEq α] (m : NumDict α)
    (l1 l2 : List (AccOp α)) :
    Accumulator.run m (l1 ++ l2) = Accumulator.run (Accumulator.run m l1) l2 := by
  induction l1 generalizing m with
  | nil => rfl
  | cons op t ih =>
    cases op with
    | step x => exact ih (Accumulator.update m x)
    | clear => exact ih Accumulator.clearMain

theorem accumulator_iter_succ [DecidableEq α] (x : NumDict α) (n : ℕ) :
    Accumulator.run Accumulator.clearMain
        (List.replicate (n + 1) (AccOp.step x))
      = (Accumulator.run Accumulator.clearMain
          (List.replicate n (AccOp.step x))).add x := by
  rw [List.replicate_succ', accumulator_run_append]
  rfl

theorem accumulator_iter_get [DecidableEq α] (x : NumDict α) (n : ℕ) (k : α) :
    (Accumulator.run Accumulator.clearMain
      (List.replicate n (AccOp.step x))).get k = n * x.get k := by
  induction n with
  | zero => simp [Accumulator.run, Accumulator.clearMain, NumDict.get]
  | succ n ih =>
    rw [accumulator_iter_succ, NumDict.get_add, ih]
    push_cast
    ring

theorem accumulator_iter_c [DecidableEq α] (x : NumDict α) (n : ℕ) :
    (Accumulator.run Accumulator.clearMain
      (List.replicate n (AccOp.step x))).c = n * x.c := by
  induction n with
  | zero => simp [Accumulator.run, Accumulator.clearMain]
  | succ n ih =>
    rw [accumulator_iter_succ]
    show (Accumulator.run Accumulator.clearMain
      (List.replicate n (AccOp.step x))).c + x.c = _
    rw [ih]
    push_cast
    ring

theorem accumulator_iter_keys [DecidableEq α] (x : NumDict α) (n : ℕ) :
    (Accumulator.run Accumulator.clearMain
      (List.replicate (n + 1) (AccOp.step x))).keys = x.keys := by
  induction n with
  | zero =>
    rw [accumulator_iter_succ]
    show ((Accumulator.clearMain (α := α)).keys ∪ x.keys) = x.keys
    show ([] ∪ x.keys) = x.keys
    rfl
  | succ n ih =>
    rw [accumulator_iter_succ]
    show (Accumulator.run Accumulator.clearMain
      (List.replicate (n + 1) (AccOp.step x))).keys ∪ x.keys = x.keys
    rw [ih]
    exact List.Subset.union_eq_right (fun a ha => ha)

/-- Claim C4: starting from an empty main, after N applied updates reading
a fixed input value x with no intervening clear, the maximum entry of main
equals N times the maximum entry of x (exactly, in the rational model of
the real-valued activations). -/
theorem accumulator_fixed_increments [DecidableEq α] (x : NumDict α) (N : ℕ) :
    (Accumulator.run Accumulator.clearMain
      (List.replicate N (AccOp.step x))).maxAll = N * x.maxAll := by
  cases N with
  | zero =>
    simp [Accumulator.run, Accumulator.clearMain, NumDict.maxAll]
  | succ n =>
    have hK := accumulator_iter_keys x n
    cases hxk : x.keys with
    | nil =>
      rw [maxAll_eq_c _ (by rw [hK, hxk]), maxAll_eq_c x hxk,
        accumulator_iter_c]
    | cons a t =>
      rw [maxAll_eq_listMax _ (by rw [hK, hxk]; exact List.cons_ne_nil a t),
        maxAll_eq_listMax x (by rw [hxk]; exact List.cons_ne_nil a t), hK]
      have hvals : (Accumulator.run Accumulator.clearMain
          (List.replicate (n + 1) (AccOp.step x))).keys.map
            (Accumulator.run Accumulator.clearMain
              (List.replicate (n + 1) (AccOp.step x))).val
          = x.keys.map (fun k => ((n + 1 : ℕ) : ℚ) * x.get k) := by
        rw [hK]
        apply List.map_congr_left
        intro k hk
        have hget := accumulator_iter_get x (n + 1) k
        rw [NumDict.get, if_pos (by rw [hK]; exact hk)] at hget
        exact hget
      rw [hK] at hvals
      rw [hvals]
      have hmm : x.keys.map (fun k => ((n + 1 : ℕ) : ℚ) * x.get k)
          = (x.keys.map x.get).map (fun q => ((n + 1 : ℕ) : ℚ) * q) := by
        rw [List.map_map]
        rfl
      rw [hmm, listMax_mul _ (by positivity)]
      have hgv : x.keys.map x.get = x.keys.map x.val := by
        apply List.map_congr_left
        intro k hk
        rw [NumDict.get, if_pos hk]
      rw [hgv]

theorem maxAll_le_add_of_nonneg [DecidableEq α] (m x : NumDict α)
    (hc : 0 ≤ x.c) (hv : ∀ k ∈ x.keys, 0 ≤ x.val k) :
    m.maxAll ≤ (m.add x).maxAll := by
  have hget : ∀ k, 0 ≤ x.get k := by
    intro k
    unfold NumDict.get
    split
    · exact hv _ (by assumption)
    · exact hc
  cases hm : m.keys with
  | nil =>
    rw [maxAll_eq_c m hm]
    have hak : (m.add x).keys = x.keys := by
      show m.keys ∪ x.keys = x.keys
      rw [hm]
      rfl
    cases hx : x.keys with
    | nil =>
      rw [maxAll_eq_c _ (by rw [hak, hx])]
      show m.c ≤ m.c + x.c
      exact le_add_of_nonneg_right hc
    | cons a t =>
      rw [maxAll_eq_listMax _ (by rw [hak, hx]; exact List.cons_ne_nil a t)]
      have hmem : (m.add x).val a ∈ (m.add x).keys.map (m.add x).val := by
        apply List.mem_map_of_mem
        rw [hak, hx]
        exact List.mem_cons_self a t
      refine le_trans ?_ (le_listMax hmem)
      show m.c ≤ m.get a + x.get a
      have hma : m.get a = m.c := by
        rw [NumDict.get, if_neg (by rw [hm]; exact List.not_mem_nil a)]
      rw [hma]
      exact le_add_of_nonneg_right (hget a)
  | cons b t =>
    rw [maxAll_eq_listMax m (by rw [hm]; exact List.cons_ne_nil b t)]
    have hne : m.keys.map m.val ≠ [] := by
      rw [hm]
      exact List.cons_ne_nil _ _
    obtain ⟨k0, hk0, hk0v⟩ := List.mem_map.mp (listMax_mem hne)
    have hk0a : k0 ∈ (m.add x).keys := List.mem_union_left hk0 _
    have hane : (m.add x).keys ≠ [] := List.ne_nil_of_mem hk0a
    rw [maxAll_eq_listMax _ hane]
    have hmem : (m.add x).val k0 ∈ (m.add x).keys.map (m.add x).val :=
      List.mem_map_of_mem _ hk0a
    refine le_trans ?_ (le_listMax hmem)
    show listMax (m.keys.map m.val) ≤ m.get k0 + x.get k0
    rw [← hk0v, NumDict.get, if_pos hk0]
    exact le_add_of_nonneg_right (hget k0)

/-- Claim C5 (amended): once the maximum entry of main strictly exceeds
the threshold, it stays above the threshold across any later applied
events that contain no clear, provided the inputs added in between are
nonnegative (as in this program's runs); with a negative input the
accumulated maximum can drop, see the counterexample. -/
theorem accumulator_threshold_monotone_nonneg [DecidableEq α] (θ : ℚ)
    (m : NumDict α) (ops : List (AccOp α))
    (hclear : AccOp.clear ∉ ops)
    (hnn : ∀ x : NumDict α, AccOp.step x ∈ ops →
      0 ≤ x.c ∧ ∀ k ∈ x.keys, 0 ≤ x.val k)
    (hθ : θ < m.maxAll) :
    θ < (Accumulator.run m ops).maxAll := by
  revert hclear hnn hθ
  induction ops generalizing m with
  | nil =>
    intro _ _ hθ
    exact hθ
  | cons op t ih =>
    intro hclear hnn hθ
    cases op with
    | clear => exact absurd (List.mem_cons_self _ _) hclear
    | step x =>
      have hx := hnn x (List.mem_cons_self _ _)
      show θ < (Accumulator.run (m.add x) t).maxAll
      exact ih (m.add x) (fun hm => hclear (List.mem_cons_of_mem _ hm))
        (fun y hy => hnn y (List.mem_cons_of_mem _ hy))
        (lt_of_lt_of_le hθ (maxAll_le_add_of_nonneg m x hx.1 hx.2))

/-- Counterexample for C5 as stated: with threshold 4, one applied update
adding 5 at key 0 takes the maximum above the threshold, and a subsequent
applied update reading a negative input (-3, no intervening clear) drops
it back below the threshold. -/
theorem accumulator_monotone_counterexample :
    (4:ℚ) < (Accumulator.run Accumulator.clearMain
      [AccOp.step accInc5]).maxAll
    ∧ (Accumulator.run Accumulator.clearMain
      [AccOp.step accInc5, AccOp.step accDec3]).maxAll < 4 := by
  constructor
  · simp [Accumulator.run, Accumulator.update, Accumulator.clearMain,
      NumDict.add, NumDict.maxAll, NumDict.get, accInc5, listMax]
    norm_num
  · simp [Accumulator.run, Accumulator.update, Accumulator.clearMain,
      NumDict.add, NumDict.maxAll, NumDict.get, accInc5, accDec3, listMax]
    norm_num

/-- Witness for the amended C5: starting above threshold 4 with maximum 5,
one applied nonnegative increment keeps the maximum above the threshold. -/
theorem accumulator_threshold_monotone_nonneg_witness :
    AccOp.clear ∉ [AccOp.step accInc1]
    ∧ ((0:ℚ) ≤ accInc1.c ∧ ∀ k ∈ accInc1.keys, (0:ℚ) ≤ accInc1.val k)
    ∧ (4:ℚ) < accInc5.maxAll
    ∧ (4:ℚ) < (Accumulator.run accInc5 [AccOp.step accInc1]).maxAll := by
  have h1 : AccOp.clear ∉ ([AccOp.step accInc1] : List (AccOp ℕ)) := by simp
  have h2 : (0:ℚ) ≤ accInc1.c ∧ ∀ k ∈ accInc1.keys, (0:ℚ) ≤ accInc1.val k := by
    constructor
    · norm_num [accInc1]
    · intro k hk
      norm_num [accInc1]
  have h3 : (4:ℚ) < accInc5.maxAll := by
    simp [accInc5, NumDict.maxAll, listMax]
    norm_num
  refine ⟨h1, h2, h3, ?_⟩
  exact accumulator_threshold_monotone_nonneg 4 accInc5 [AccOp.step accInc1] h1
    (fun x hx => by
      have hxe : x = accInc1 := by simpa using hx
      rw [hxe]
      exact h2) h3

theorem except_map_ok_iff {E A B : Type} (f : A → B) (m : Except E A) :
    (∃ r, m.map f = .ok r) ↔ ∃ r, m = .ok r := by
  cases m <;> simp [Except.map]

theorem except_map_error_iff {E A B : Type} (f : A → B) (m : Except E A)
    (e : E) : m.map f = .error e ↔ m = .error e := by
  cases m <;> simp [Except.map]

theorem except_not_ok {E A : Type} (m : Except E A)
    (h : ¬ ∃ r, m = .ok r) : ∃ e, m = .error e := by
  cases m with
  | error e => exact ⟨e, rfl⟩
  | ok r => exact absurd ⟨r, rfl⟩ h

theorem parseDict_cases [DecidableEq κ] (idx : List κ) :
    ∀ l : List (κ × ℚ),
    ((∃ r, Input.parseDict idx l = .ok r) ↔ ∀ k ∈ l.map (fun e => e.1), k ∈ idx)
    ∧ ∀ k2 : κ, Input.parseDict idx l = .error (.unknownKey k2) →
        k2 ∈ l.map (fun e => e.1) ∧ k2 ∉ idx := by
  intro l
  induction l with
  | nil =>
    constructor
    · simp [Input.parseDict]
    · intro k2 h
      cases h
  | cons e t ih =>
    rcases e with ⟨k, v⟩
    by_cases hk : k ∈ idx
    · have hstep : Input.parseDict idx ((k, v) :: t)
          = (Input.parseDict idx t).map (fun r => (k, v) :: r) := by
        simp [Input.parseDict, hk]
      constructor
      · rw [hstep]
        rw [except_map_ok_iff]
        rw [ih.1]
        simp [hk]
      · intro k2 h
        rw [hstep, except_map_error_iff] at h
        have := ih.2 k2 h
        exact ⟨List.mem_cons_of_mem _ this.1, this.2⟩
    · have hstep : Input.parseDict idx ((k, v) :: t)
          = .error (.unknownKey k) := by
        simp [Input.parseDict, hk]
      constructor
      · rw [hstep]
        constructor
        · intro hex
          obtain ⟨r, hr⟩ := hex
          cases hr
        · intro hall
          exact absurd (hall k (by simp)) hk
      · intro k2 h
        rw [hstep] at h
        have hke : k = k2 := InputErr.unknownKey.inj (Except.error.inj h)
        subst hke
        exact ⟨by simp, hk⟩

theorem parseChunk_cases [DecidableEq κ] (comb : κ → κ → κ) (idx : List κ) :
    ∀ l : List ((CTerm κ × CTerm κ) × ℚ),
    ((∃ r, Input.parseChunk comb idx l = .ok r)
      ↔ ((l.any (fun e => match e.1 with
            | (CTerm.var, _) => true
            | (_, CTerm.var) => true
            | _ => false)) = false
        ∧ ∀ k ∈ l.filterMap (fun e => match e.1 with
            | (CTerm.term a, CTerm.term b) => some (comb a b)
            | _ => none), k ∈ idx))
    ∧ ∀ k2 : κ, Input.parseChunk comb idx l = .error (.unknownKey k2) →
        k2 ∈ l.filterMap (fun e => match e.1 with
            | (CTerm.term a, CTerm.term b) => some (comb a b)
            | _ => none) ∧ k2 ∉ idx := by
  intro l
  induction l with
  | nil =>
    constructor
    · simp [Input.parseChunk]
    · intro k2 h
      cases h
  | cons e t ih =>
    rcases e with ⟨⟨t1, t2⟩, wt⟩
    cases t1 with
    | var =>
      have hstep : Input.parseChunk comb idx (((CTerm.var, t2), wt) :: t)
          = .error .varInChunk := rfl
      constructor
      · rw [hstep]
        constructor
        · intro hex
          obtain ⟨r, hr⟩ := hex
          cases hr
        · intro hall
          simp at hall
      · intro k2 h
        rw [hstep] at h
        cases Except.error.inj h
    | term a =>
      cases t2 with
      | var =>
        have hstep : Input.parseChunk comb idx
            (((CTerm.term a, CTerm.var), wt) :: t) = .error .varInChunk := rfl
        constructor
        · rw [hstep]
          constructor
          · intro hex
            obtain ⟨r, hr⟩ := hex
            cases hr
          · intro hall
            simp at hall
        · intro k2 h
          rw [hstep] at h
          cases Except.error.inj h
      | term b =>
        by_cases hk : comb a b ∈ idx
        · have hstep : Input.parseChunk comb idx
              (((CTerm.term a, CTerm.term b), wt) :: t)
              = (Input.parseChunk comb idx t).map
                  (fun l2 => (comb a b, wt) :: l2) := by
            simp [Input.parseChunk, hk]
          constructor
          · rw [hstep, except_map_ok_iff, ih.1]
            simp [hk]
          · intro k2 h
            rw [hstep, except_map_error_iff] at h
            have := ih.2 k2 h
            refine ⟨?_, this.2⟩
            simp only [List.filterMap_cons]
            exact List.mem_cons_of_mem _ this.1
        · have hstep : Input.parseChunk comb idx
              (((CTerm.term a, CTerm.term b), wt) :: t)
              = .error (.unknownKey (comb a b)) := by
            simp [Input.parseChunk, hk]
          constructor
          · rw [hstep]
            constructor
            · intro hex
              obtain ⟨r, hr⟩ := hex
              cases hr
            · intro hall
              refine absurd (hall.2 (comb a b) ?_) hk
              simp [List.filterMap_cons]
          · intro k2 h
            rw [hstep] at h
            have hke : comb a b = k2 :=
              InputErr.unknownKey.inj (Except.error.inj h)
            subst hke
            refine ⟨?_, hk⟩
            simp [List.filterMap_cons]

/-- Claim C6: a payload containing a raw key or dimension-value pair
absent from the main site's index makes `Input.send` raise an error to the
caller before anything is scheduled (in this embedding an erroneous `send`
returns no scheduled update, so no site state can change); conversely a
payload all of whose resolved keys are in the index raises no unknown-key
error, and `send` succeeds (scheduling exactly one update) exactly when
the payload is Var-free and all its resolved keys are in the index. -/
theorem input_send_unknown_key [DecidableEq κ] (comb : κ → κ → κ)
    (idx : List κ) (reset : Bool) (d : InPayload κ) :
    ((∃ k ∈ d.resolvedKeys comb, k ∉ idx) →
      ∃ e, Input.send comb idx reset d = .error e)
    ∧ ((∀ k ∈ d.resolvedKeys comb, k ∈ idx) →
      ∀ k2 : κ, Input.send comb idx reset d ≠ .error (.unknownKey k2))
    ∧ ((∃ r, Input.send comb idx reset d = .ok r)
      ↔ (d.hasVar = false ∧ ∀ k ∈ d.resolvedKeys comb, k ∈ idx)) := by
  have hsend : Input.send comb idx reset d
      = (Input.parseInput comb idx d).map (fun data => ⟨data, reset⟩) := rfl
  have hok : (∃ r, Input.send comb idx reset d = .ok r)
      ↔ (d.hasVar = false ∧ ∀ k ∈ d.resolvedKeys comb, k ∈ idx) := by
    rw [hsend, except_map_ok_iff]
    cases d with
    | dict l =>
      show (∃ r, Input.parseDict idx l = .ok r) ↔ _
      rw [(parseDict_cases idx l).1]
      simp [InPayload.hasVar, InPayload.resolvedKeys]
    | chunk l =>
      show (∃ r, Input.parseChunk comb idx l = .ok r) ↔ _
      rw [(parseChunk_cases comb idx l).1]
      exact Iff.rfl
  have herr : ∀ k2 : κ, Input.send comb idx reset d = .error (.unknownKey k2)
      → k2 ∈ d.resolvedKeys comb ∧ k2 ∉ idx := by
    intro k2 h
    rw [hsend, except_map_error_iff] at h
    cases d with
    | dict l => exact (parseDict_cases idx l).2 k2 h
    | chunk l => exact (parseChunk_cases comb idx l).2 k2 h
  refine ⟨?_, ?_, hok⟩
  · intro hex
    apply except_not_ok
    rw [hok]
    rintro ⟨hv, hall⟩
    obtain ⟨k, hk, hnk⟩ := hex
    exact hnk (hall k hk)
  · intro hall k2 h
    have hmem := herr k2 h
    exact hmem.2 (hall k2 hmem.1)

/-- Witness for C6: sending a raw mapping with key 5 into an index holding
only keys 0 and 1 raises an error. -/
theorem input_send_unknown_key_witness :
    (∃ k ∈ (InPayload.dict [((5:ℕ), (1:ℚ))]).resolvedKeys (fun a b => a + b),
      k ∉ ([0, 1] : List ℕ))
    ∧ ∃ e, Input.send (fun a b => a + b) ([0, 1] : List ℕ) true
        (InPayload.dict [((5:ℕ), (1:ℚ))]) = .error e :=
  ⟨by decide,
    (input_send_unknown_key (fun a b => a + b) ([0, 1] : List ℕ) true
      (InPayload.dict [((5:ℕ), (1:ℚ))])).1 (by decide)⟩

/-- Claim C8: registering a Pool input succeeds exactly when the supplied
value carries a Site whose KeyForm the pool's main KeyForm is subsumed by;
otherwise `Pool.__setitem__` raises (TypeError for a non-Site value,
ValueError for failed subsumption) at wiring time, and in the embedding an
erroneous registration returns no successor state, so the registry,
parameter sort and gain parameters are untouched. -/
theorem pool_setitem_wiring_check {KF' : Type} (le : KF' → KF' → Bool)
    (st : PoolState α KF') (name : ℕ) (v : PoolArg α KF') :
    (∃ st2, Pool.setItem le st name v = .ok st2)
      ↔ ∃ s, v.siteOf = some s ∧ le st.mainKF s.kf = true := by
  cases v with
  | other => simp [Pool.setItem, PoolArg.siteOf]
  | site s =>
    cases hle : le st.mainKF s.kf
    · simp [Pool.setItem, PoolArg.siteOf, hle]
    · simp [Pool.setItem, PoolArg.siteOf, hle]
  | sitePre s f =>
    cases hle : le st.mainKF s.kf
    · simp [Pool.setItem, PoolArg.siteOf, hle]
    · simp [Pool.setItem, PoolArg.siteOf, hle]

/-- Claim C10: a successful Pool input registration initializes the gain
parameter minted for the name to exactly 1.0, and records a pre-transform
only when one is supplied (registering a bare Site leaves the
pre-transform table unchanged). -/
theorem pool_setitem_gain_one {KF' : Type} (le : KF' → KF' → Bool)
    (st : PoolState α KF') (name : ℕ) (s : SiteM KF')
    (f : NumDict α → NumDict α) :
    (∀ st2, Pool.setItem le st name (.site s) = .ok st2 →
      st2.params.find? (fun e => e.1 = name) = some (name, 1)
      ∧ st2.pre = st.pre)
    ∧ (∀ st2, Pool.setItem le st name (.sitePre s f) = .ok st2 →
      st2.params.find? (fun e => e.1 = name) = some (name, 1)
      ∧ st2.pre.find? (fun e => e.1 = name) = some (name, f)) := by
  constructor
  · intro st2 h
    cases hle : le st.mainKF s.kf
    · rw [Pool.setItem] at h
      simp [hle] at h
    · rw [Pool.setItem] at h
      simp [hle] at h
      subst h
      constructor
      · simp [List.find?]
      · rfl
  · intro st2 h
    cases hle : le st.mainKF s.kf
    · rw [Pool.setItem] at h
      simp [hle] at h
    · rw [Pool.setItem] at h
      simp [hle] at h
      subst h
      constructor
      · simp [List.find?]
      · simp [List.find?]

/-- Witness for C10: registering site `⟨0⟩` under the fresh name 7 in an
empty pool state yields a gain parameter of exactly 1 and an unchanged
pre-transform table. -/
theorem pool_setitem_gain_one_witness :
    poolStEx'.params.find? (fun e => e.1 = 7) = some (7, 1)
    ∧ poolStEx'.pre = poolStEx.pre :=
  (pool_setitem_gain_one (fun _ _ => true) poolStEx 7 ⟨0⟩ (fun d => d)).1
    poolStEx' rfl

/-- Claim C9: `BottomUp.resolve` and `TopDown.resolve` call `update` for a
delivered event exactly when some `Site.Update` record of the event
touches the declared input site's index; in particular an event whose
site updates touch only the (disjoint) weights index triggers no
recomputation. -/
theorem resolve_input_gated [DecidableEq κ] (inputIdx weightsIdx : List κ)
    (e : EventM κ) :
    (BottomUp.resolve inputIdx e = true ↔
      ∃ t ∈ siteUpdates e.updates, ∃ k ∈ t, k ∈ inputIdx)
    ∧ (TopDown.resolve inputIdx e = true ↔
      ∃ t ∈ siteUpdates e.updates, ∃ k ∈ t, k ∈ inputIdx)
    ∧ ((∀ t ∈ siteUpdates e.updates, ∀ k ∈ t, k ∈ weightsIdx) →
       (∀ k ∈ weightsIdx, k ∉ inputIdx) →
       BottomUp.resolve inputIdx e = false
       ∧ TopDown.resolve inputIdx e = false) := by
  have hiff : affectedBy inputIdx (siteUpdates e.updates) = true ↔
      ∃ t ∈ siteUpdates e.updates, ∃ k ∈ t, k ∈ inputIdx := by
    simp [affectedBy]
  refine ⟨hiff, hiff, ?_⟩
  intro hw hdisj
  have hno : ¬ ∃ t ∈ siteUpdates e.updates, ∃ k ∈ t, k ∈ inputIdx := by
    rintro ⟨t, ht, k, hk, hki⟩
    exact hdisj k (hw t ht k hk) hki
  constructor
  · exact Bool.eq_false_iff.mpr (fun habs => hno (hiff.mp habs))
  · exact Bool.eq_false_iff.mpr (fun habs => hno (hiff.mp habs))

/-- Witness for C9: an event whose only site update writes key 5 of the
weights index leaves both resolvers idle for an input index holding keys 0
and 1. -/
theorem resolve_input_gated_witness :
    BottomUp.resolve ([0, 1] : List ℕ) ⟨[Upd.siteUpd [5], Upd.other]⟩ = false
    ∧ TopDown.resolve ([0, 1] : List ℕ) ⟨[Upd.siteUpd [5], Upd.other]⟩ = false :=
  (resolve_input_gated ([0, 1] : List ℕ) ([5, 6] : List ℕ)
    ⟨[Upd.siteUpd [5], Upd.other]⟩).2.2 (by decide) (by decide)
